import Mathlib

/-!
Verification of the graph-sampling and multi-graph embedding routines of
`pygraphstats` (graspy simulations / embed modules), shallowly embedded in Lean.

Matrices are embedded as total functions `ℕ → ℕ → ℚ` together with an explicit
dimension where a dimension is relevant; numpy's pseudo-random primitives are
embedded as explicit oracle parameters (a uniform draw per cell or per block,
and a weighted-choice oracle), so that every sampler is a deterministic
function of its inputs and its random draws.
-/

/-- A dense numeric matrix, as a total function on indices. -/
abbrev Mat : Type := ℕ → ℕ → ℚ

/-- `np.random.binomial(1, p)` driven by a uniform draw `u ∈ [0,1)`:
the Bernoulli(p) outcome is 1 exactly when `u < p`. -/
def bern (u p : ℚ) : ℚ := if u < p then 1 else 0

/-- Modelled from the spec: `symmetrize(A, method="triu")` from the repository's
`utils` module (not under `src/`): the upper triangle (including the diagonal)
is mirrored onto the lower triangle so that the result equals its transpose. -/
def symmetrizeTriu (A : Mat) : Mat := fun i j => if i ≤ j then A i j else A j i

/-- `sample_edges(P, directed, loops)` from `graspy/simulations/simulations.py`:
in the undirected case only the cells `i ≤ j` receive a Bernoulli draw
(`A[triu_inds] = samples` on a zero matrix) and the matrix is then mirrored by
`symmetrize(A, method="triu")`; in the directed case every cell receives its
own draw.  If `loops` is false the diagonal is zeroed afterwards
(`A - np.diag(np.diag(A))`).  `u i j` is the uniform draw consumed by cell
`(i, j)`. -/
def sample_edges (P u : Mat) (directed loops : Bool) : Mat :=
  let A : Mat :=
    if directed then fun i j => bern (u i j) (P i j)
    else symmetrizeTriu (fun i j => if i ≤ j then bern (u i j) (P i j) else 0)
  if loops then A else fun i j => if i = j then 0 else A i j

/-- The raw probability matrix of `p_from_latent`: `P = X @ Y.T`, i.e.
`P[i, j]` is the dot product of row `i` of `X` with row `j` of `Y`
(`d` = number of latent dimensions). -/
def dotRows (d : ℕ) (X Y : Mat) : Mat :=
  fun i j => ∑ k in Finset.range d, X i k * Y j k

/-- `A - np.diag(np.diag(A))`: zero out the diagonal. -/
def zeroDiag (A : Mat) : Mat := fun i j => if i = j then 0 else A i j

/-- The clipping branch of `p_from_latent`: first `P[P < 0] = 0`, then
`P[P > 1] = 1`. -/
def clip01 (A : Mat) : Mat :=
  let B : Mat := fun i j => if A i j < 0 then 0 else A i j
  fun i j => if 1 < B i j then 1 else B i j

/-- All entries of the leading `nv × nv` block of a matrix, row-major
(used to model `P.min()` / `P.max()`). -/
def entriesList (nv : ℕ) (P : Mat) : List ℚ :=
  (List.range nv).flatMap (fun i => (List.range nv).map (fun j => P i j))

def listMin (l : List ℚ) : ℚ :=
  match l with
  | [] => 0
  | x :: xs => xs.foldl min x

def listMax (l : List ℚ) : ℚ :=
  match l with
  | [] => 0
  | x :: xs => xs.foldl max x

/-- `p_from_latent(X, Y, rescale, loops)` from
`graspy/simulations/simulations.py`: `P = X @ Y.T` (with `Y` defaulting to
`X`); if `loops` is false the diagonal is zeroed first; then either the
affine rescale into `[0,1]` (subtract the minimum when it is negative, divide
by the maximum when it exceeds 1) or, when `rescale` is false, the entrywise
clip to `[0,1]`.  The source's type/rank/shape validations are carried by the
embedding's types. -/
def p_from_latent (nv d : ℕ) (X : Mat) (Y : Option Mat) (rescale loops : Bool) : Mat :=
  let P := dotRows d X (Y.getD X)
  let P1 := if loops then P else zeroDiag P
  if rescale then
    let m := listMin (entriesList nv P1)
    let P2 : Mat := if m < 0 then fun i j => P1 i j - m else P1
    let M := listMax (entriesList nv P2)
    if 1 < M then fun i j => P2 i j / M else P2
  else clip01 P1

/-- The conditional probability matrix of `sample_edges_corr`:
`np.where(G1 == 1, P + R * (1 - P), P * (1 - R))`. -/
def condProb (P R G1 : Mat) : Mat := fun i j =>
  if G1 i j = 1 then P i j + R i j * (1 - P i j) else P i j * (1 - R i j)

/-- `sample_edges_corr(P, R, directed, loops)` from
`graspy/simulations/simulations_corr.py`: sample `G1` from `P`, build the
conditional matrix `P2`, sample `G2` from `P2`; `u1`/`u2` are the uniform
draws consumed by the two `sample_edges` calls. -/
def sample_edges_corr (P R u1 u2 : Mat) (directed loops : Bool) : Mat × Mat :=
  let G1 := sample_edges P u1 directed loops
  let G2 := sample_edges (condProb P R G1) u2 directed loops
  (G1, G2)

/-- Concrete probability matrix for the correlated-pair witness. -/
def Pconst : Mat := fun _ _ => 1 / 2

/-- Concrete all-ones correlation matrix for the correlated-pair witness. -/
def Rone : Mat := fun _ _ => 1

/-- Concrete uniform draws for the correlated-pair witness. -/
def uconst : Mat := fun _ _ => 1 / 4

/-- The `wt` argument of the samplers: a Python `int` constant, a numeric
constant that is not an `int` (e.g. a `float`), or a callable taking a `size`
keyword — modelled as a function from the requested size to the list of drawn
weights (the draws a call to the weight function would consume from the global
generator). -/
inductive Wt : Type where
  | intConst : ℤ → Wt
  | floatConst : ℚ → Wt
  | fn : (ℕ → List ℚ) → Wt

/-- `np.issubdtype(type(wt), np.number)` holds but `callable(wt)` fails only
for the non-`int` numeric constants. -/
def wtIsFloat : Wt → Bool
  | .floatConst _ => true
  | _ => false

/-- Read a matrix off a list of cell assignments (as numpy fancy assignment
`A[idx] = w` does on a zero matrix, later assignments overwriting earlier
ones): the value of the last assignment to the cell, 0 when none. -/
def assignLookup (l : List ((ℕ × ℕ) × ℚ)) : Mat := fun v1 v2 =>
  match l.reverse.find? (fun x => decide (x.1 = (v1, v2))) with
  | some x => x.2
  | none => 0

/-- The maximum feasible edge count of `er_nm`: `n²`, `n(n+1)/2`, `n(n-1)`
or `n(n-1)/2` depending on `loops` and `directed`. -/
def max_edges (n : ℕ) (directed loops : Bool) : ℕ :=
  if loops then
    if directed then n ^ 2 else n * (n + 1) / 2
  else
    if directed then n * (n - 1) else n * (n - 1) / 2

/-- The index set `er_nm` samples from: all cells (directed, loops),
off-diagonal cells (directed, no loops), the upper triangle with diagonal
(undirected, loops: `triu_indices(n, k=0)`), or the strict upper triangle
(undirected, no loops: `triu_indices(n, k=1)`). -/
def eligiblePair (n : ℕ) (directed loops : Bool) (q : ℕ × ℕ) : Prop :=
  q.1 < n ∧ q.2 < n ∧
    ((directed = true ∧ (loops = true ∨ q.1 ≠ q.2)) ∨
     (directed = false ∧ loops = true ∧ q.1 ≤ q.2) ∨
     (directed = false ∧ loops = false ∧ q.1 < q.2))

/-- `er_nm(n, m, directed, loops, wt)` from
`graspy/simulations/simulations.py`.  `chosen` is the output of
`np.random.choice(idx, size=m, replace=False)` over the eligible index set —
the claims' theorems hypothesise exactly the contract of that call (m distinct
eligible pairs).  Validation mirrors the source order: `m > 0`, `n > 0`, the
weight must be an integer or a callable, and `m` may not exceed the
combinatorial maximum.  The chosen cells are then assigned the weight
(an integer constant broadcast, or `wt(size=m)` drawn positionally), and the
matrix is mirrored when undirected. -/
def er_nm (n m : ℕ) (directed loops : Bool) (wt : Wt) (chosen : List (ℕ × ℕ)) :
    Except String Mat :=
  if m = 0 then .error "m must be greater than 0."
  else if n = 0 then .error "n must be greater than 0."
  else if wtIsFloat wt then .error "You have not passed a function for wt."
  else if max_edges n directed loops < m then
    .error "number of edges exceeding the maximum"
  else
    let asg : List ((ℕ × ℕ) × ℚ) :=
      match wt with
      | .intConst z => chosen.map (fun q => (q, (z : ℚ)))
      | .floatConst _ => []
      | .fn f => chosen.zip (f m)
    let A := assignLookup asg
    .ok (if directed then A else symmetrizeTriu A)

/-- The number of nonzero entries of the leading `nv × nv` block. -/
def nonzeroCount (nv : ℕ) (A : Mat) : ℕ :=
  ((Finset.range nv ×ˢ Finset.range nv).filter (fun q => A q.1 q.2 ≠ 0)).card

/-- The number of chosen pairs lying on the diagonal. -/
def diagChosen (chosen : List (ℕ × ℕ)) : ℕ :=
  (chosen.filter (fun q => q.1 == q.2)).length

/-- `(n.take k).sum`, i.e. the entry `n_cumsum[k-1]` of `n.cumsum()`
(0 for `k = 0`). -/
def prefixSum (n : List ℕ) (k : ℕ) : ℕ := (n.take k).sum

/-- `_n_to_labels(n)` from `graspy/simulations/simulations.py`: a zero vector
of length `n.sum()` whose slice `[n_cumsum[i-1] : n_cumsum[i]]` is overwritten
with `i` for `i = 1, …, len(n)-1`; the fold replays the loop's overwrites for
one position `v`. -/
def n_to_labels (n : List ℕ) : List ℕ :=
  (List.range n.sum).map (fun v =>
    (List.range n.length).foldl
      (fun acc i =>
        if 1 ≤ i ∧ prefixSum n i ≤ v ∧ v < prefixSum n (i + 1) then i else acc)
      0)

/-- Entry `p[i][j]` of the block-probability matrix. -/
def pGet (p : List (List ℚ)) (i j : ℕ) : ℚ := (p.getD i []).getD j 0

/-- `p.shape == (len(n), len(n))`. -/
def pShapeOk (n : List ℕ) (p : List (List ℚ)) : Bool :=
  (p.length == n.length) && p.all (fun row => row.length == n.length)

/-- All entries of `p` lie in `[0, 1]`. -/
def pValsOk (p : List (List ℚ)) : Bool :=
  p.all (fun row => row.all (fun x => decide (0 ≤ x) && decide (x ≤ 1)))

/-- `np.any(p != p.T)` is false. -/
def pSymmOk (p : List (List ℚ)) : Bool :=
  decide (∀ i < p.length, ∀ j < p.length, pGet p i j = pGet p j i)

/-- `dc` (array-of-scalars form) has one weight per vertex. -/
def dcSizeOk (n : List ℕ) (dc : Option (List ℚ)) : Bool :=
  match dc with
  | none => true
  | some d => d.length == n.sum

/-- No negative degree-correction weight. -/
def dcNonnegOk (dc : Option (List ℚ)) : Bool :=
  match dc with
  | none => true
  | some d => d.all (fun x => decide (0 ≤ x))

/-- The vertex indices of community `i`: `range(counter, counter + n[i])`. -/
def blockRange (n : List ℕ) (i : ℕ) : List ℕ :=
  List.range' (prefixSum n i) (n.getD i 0)

/-- Modelled from the spec: `cartprod` from the repository's `utils` module
(not under `src/`), the Cartesian-product index helper, in row-major order. -/
def cartprod (xs ys : List ℕ) : List (ℕ × ℕ) :=
  xs.flatMap (fun a => ys.map (fun b => (a, b)))

/-- The random draws `sbm` consumes: `unif i j t` is the `t`-th entry of the
`np.random.uniform(size=len(triu))` vector of block pair `(i, j)`, and
`choice pop size dist` stands for
`np.random.choice(pop, size, replace=False, p=dist)` in the degree-corrected
path. -/
structure SbmRand : Type where
  unif : ℕ → ℕ → ℕ → ℚ
  choice : List (ℕ × ℕ) → ℕ → List ℚ → List (ℕ × ℕ)

/-- Per-community renormalization of the degree-correction weights: each
block's weights are divided by the block sum when it differs from 1 (the
tolerance of the `np.isclose` test is abstracted to exact equality; the
renormalization itself is a non-fatal warning path in the source). -/
def dcNormalize (n : List ℕ) (d : List ℚ) : List ℚ :=
  (List.range n.length).flatMap (fun k =>
    let block := (d.drop (prefixSum n k)).take (n.getD k 0)
    let s := block.sum
    if s = 1 then block else block.map (fun x => x / s))

/-- The edge cells a block contributes: without degree correction, the cells
whose uniform draw is below the block probability; with degree correction,
`sum(pchoice < p)` cells are drawn by `np.random.choice` weighted by the
product of the endpoints' weights, capped at the number of pairs with nonzero
joint weight. -/
def blockEdges (r : SbmRand) (dcP : Option (List ℚ)) (pij : ℚ) (i j : ℕ)
    (pairs : List (ℕ × ℕ)) : List (ℕ × ℕ) :=
  match dcP with
  | none =>
      (pairs.enum.filter (fun x => decide (r.unif i j x.1 < pij))).map (fun x => x.2)
  | some d =>
      let numEdges :=
        ((List.range pairs.length).filter (fun t => decide (r.unif i j t < pij))).length
      let dist := pairs.map (fun q => d.getD q.1 0 * d.getD q.2 0)
      let support := (dist.filter (fun x => decide (0 < x))).length
      r.choice pairs (min numEdges support) dist

/-- `if type(block_wt) is not int: block_wt = block_wt(size=len(triu), ...)`:
an `int` constant is broadcast over the kept cells; anything else is called as
a function — for a non-`int` numeric constant this is the `TypeError` of
calling a number.  A callable yields one weight per kept cell, positionally.
-/
def blockAssign (wt : Wt) (kept : List (ℕ × ℕ)) :
    Except String (List ((ℕ × ℕ) × ℚ)) :=
  match wt with
  | .intConst z => .ok (kept.map (fun q => (q, (z : ℚ))))
  | .floatConst _ => .error "TypeError: object is not callable"
  | .fn f => .ok (kept.zip (f kept.length))

/-- The community pairs the `sbm` loop visits: `j` ranges over `range(K)` when
directed and `range(i, K)` when undirected. -/
def blockPairsList (K : ℕ) (directed : Bool) : List (ℕ × ℕ) :=
  (List.range K).flatMap (fun i =>
    (if directed then List.range K else (List.range K).drop i).map (fun j => (i, j)))

/-- One iteration of the `sbm` block loop, threading the accumulated cell
assignments through `Except`. -/
def sbmStep (n : List ℕ) (p : List (List ℚ)) (wt : Wt) (dcP : Option (List ℚ))
    (r : SbmRand) (acc : Except String (List ((ℕ × ℕ) × ℚ))) (bij : ℕ × ℕ) :
    Except String (List ((ℕ × ℕ) × ℚ)) := do
  let l ← acc
  let pairs := cartprod (blockRange n bij.1) (blockRange n bij.2)
  let kept := blockEdges r dcP (pGet p bij.1 bij.2) bij.1 bij.2 pairs
  let a ← blockAssign wt kept
  pure (l ++ a)

/-- All cell assignments produced by the `sbm` block loop. -/
def sbmAssignments (n : List ℕ) (p : List (List ℚ)) (directed : Bool) (wt : Wt)
    (dcP : Option (List ℚ)) (r : SbmRand) :
    Except String (List ((ℕ × ℕ) × ℚ)) :=
  (blockPairsList n.length directed).foldl (sbmStep n p wt dcP r) (.ok [])

/-- `sbm(n, p, directed, loops, wt, wtargs, dc, dc_kws, return_labels)` from
`graspy/simulations/simulations.py`.  `n` is the per-community size vector and
`p` the `K×K` block probability matrix (entries validated into `[0,1]`, and
symmetric when undirected); `wt` is the global weight (the array-of-callables
input form, validated elementwise callable in the source, is elided — every
claim concerns the scalar form, which the source broadcasts with `np.full`);
`dc` is the degree-correction vector in its array-of-scalars form (the
callable forms produce exactly such a vector by drawing one weight per vertex
from the generator).  After the block loop the diagonal is zeroed unless
`loops`, the matrix is mirrored unless `directed`, and the labels from
`_n_to_labels` are attached when `return_labels`. -/
def sbm (n : List ℕ) (p : List (List ℚ)) (directed loops : Bool) (wt : Wt)
    (dc : Option (List ℚ)) (r : SbmRand) (return_labels : Bool) :
    Except String (Mat × Option (List ℕ)) :=
  if pShapeOk n p = false then .error "p is must have shape len(n) x len(n)"
  else if pValsOk p = false then .error "Values in p must be in between 0 and 1."
  else if directed = false ∧ pSymmOk p = false then
    .error "Specified undirected, but P is directed."
  else if dcSizeOk n dc = false then
    .error "dc must have size equal to the number of vertices"
  else if dcNonnegOk dc = false then .error "Values in dc cannot be negative."
  else do
    let asg ← sbmAssignments n p directed wt (dc.map (dcNormalize n)) r
    let A0 := assignLookup asg
    let A1 := if loops then A0 else zeroDiag A0
    let A2 := if directed then A1 else symmetrizeTriu A1
    pure (A2, if return_labels then some (n_to_labels n) else none)

/-- `er_np(n, p, directed, loops, wt, wtargs, dc, dc_kws)` from
`graspy/simulations/simulations.py`: after its own validation — notably
`isinstance(dc, (list, np.ndarray)) and all(callable(f) for f in dc)` raises,
which for an array of scalars fires exactly on the empty list — it builds
`n_sbm = [n]`, `p_sbm = [[p]]` and returns `sbm(n_sbm, p_sbm, directed,
loops, wt, wtargs, dc, dc_kws)` (with `return_labels` at its default False).
The `p must be a float` type check is carried by `p : ℚ`. -/
def er_np (n : ℕ) (p : ℚ) (directed loops : Bool) (wt : Wt)
    (dc : Option (List ℚ)) (r : SbmRand) :
    Except String (Mat × Option (List ℕ)) :=
  if dc = some [] then .error "dc is not of type function or array-like of scalars"
  else sbm [n] [[p]] directed loops wt dc r false

/-- Whether an `Except` computation succeeded. -/
def isOkE {α : Type} (e : Except String α) : Bool :=
  match e with
  | .ok _ => true
  | .error _ => false

/-- The label component of an `sbm` result. -/
def exceptLabels (e : Except String (Mat × Option (List ℕ))) : Option (List ℕ) :=
  match e with
  | .ok x => x.2
  | .error _ => none

/-- A concrete draw oracle for the witnesses: every uniform draw is 1 (so no
edge is accepted) and the choice oracle picks the first eligible pairs. -/
def r0 : SbmRand := ⟨fun _ _ _ => 1, fun pop c _ => pop.take c⟩

/-- `edge_comm.shape[0]`: the number of rows. -/
def ecRows (ec : List (List ℤ)) : ℕ := ec.length

/-- `edge_comm.shape[1]`: the common row length (numpy arrays built from a
list of lists are rectangular). -/
def ecCols (ec : List (List ℤ)) : ℕ := (ec.headD []).length

/-- `edge_comm[i, j]` (the integer-entries check of the source is carried by
the `ℤ` entry type). -/
def ecGet (ec : List (List ℤ)) (i j : ℕ) : ℤ := (ec.getD i []).getD j 0

/-- All entries of `edge_comm`, row-major. -/
def ecEntries (ec : List (List ℤ)) : List ℤ := ec.flatMap (fun row => row)

/-- The off-diagonal entries, `edge_comm[~np.eye(n, dtype=bool)]`. -/
def ecOffdiag (ec : List (List ℤ)) : List ℤ :=
  (List.range (ecRows ec)).flatMap (fun i =>
    ((List.range (ecCols ec)).filter (fun j => decide (i ≠ j))).map
      (fun j => ecGet ec i j))

/-- `np.diagonal(edge_comm)`. -/
def ecDiag (ec : List (List ℤ)) : List ℤ :=
  (List.range (ecRows ec)).map (fun i => ecGet ec i i)

/-- `np.min` over a vector of integers (`none` on the zero-size array, where
numpy raises). -/
def listMinZ (l : List ℤ) : Option ℤ :=
  match l with
  | [] => none
  | x :: xs => some (xs.foldl min x)

/-- `np.max` over a vector of integers (`none` on the zero-size array). -/
def listMaxZ (l : List ℤ) : Option ℤ :=
  match l with
  | [] => none
  | x :: xs => some (xs.foldl max x)

/-- `len(np.unique(...))`. -/
def uniqueCount (l : List ℤ) : ℕ := l.dedup.length

/-- The `p` argument of `siem`: a scalar broadcast to all `K` edge
communities, or an explicit length-`K` vector. -/
inductive PParam : Type where
  | scalar : ℚ → PParam
  | vec : List ℚ → PParam

/-- `if isinstance(p, float) or isinstance(p, int): p = p * np.ones(K)`. -/
def resolveP (p : PParam) (K : ℕ) : List ℚ :=
  match p with
  | .scalar q => List.replicate K q
  | .vec l => l

/-- `K = edge_comm.max()` as a natural number (0 when undefined). -/
def siemK (ec : List (List ℤ)) : ℕ := ((listMaxZ (ecEntries ec)).getD 0).toNat

/-- `edge_comm` rows are rectangular (numpy array construction). -/
def ecRectOk (ec : List (List ℤ)) : Bool :=
  ec.all (fun row => row.length == ecCols ec)

/-- With loops: `edge_comm.min() == 1`. -/
def ecLoopsMinOk (ec : List (List ℤ)) : Bool := listMinZ (ecEntries ec) == some 1

/-- With loops: `len(np.unique(edge_comm)) == K`. -/
def ecLoopsSeqOk (ec : List (List ℤ)) (KZ : ℤ) : Bool :=
  (uniqueCount (ecEntries ec) : ℤ) == KZ

/-- Loopless: the off-diagonal minimum is 1. -/
def ecNoLoopsMinOk (ec : List (List ℤ)) : Bool := listMinZ (ecOffdiag ec) == some 1

/-- Loopless: the whole diagonal is 0. -/
def ecDiagZeroOk (ec : List (List ℤ)) : Bool := (ecDiag ec).all (fun x => x == 0)

/-- Loopless: `len(np.unique(edge_comm)) == K + 1`. -/
def ecNoLoopsSeqOk (ec : List (List ℤ)) (KZ : ℤ) : Bool :=
  (uniqueCount (ecEntries ec) : ℤ) == KZ + 1

/-- `edge_comm.shape[0] == edge_comm.shape[1]`. -/
def ecSquareOk (ec : List (List ℤ)) : Bool := ecRows ec == ecCols ec

/-- `len(p) == K`. -/
def pLenOk (pv : List ℚ) (K : ℕ) : Bool := pv.length == K

/-- All community probabilities lie in `[0, 1]`. -/
def pValsOkV (pv : List ℚ) : Bool :=
  pv.all (fun x => decide (0 ≤ x) && decide (x ≤ 1))

/-- The sampled adjacency matrix of `siem` before symmetrization: each cell
assigned to community `i ≥ 1` draws Bernoulli(`p[i-1]`); cells with community
0 stay 0.  `u i j` is the uniform draw of cell `(i, j)` (the source draws each
community's cells as one `bernoulli.rvs(p, size=count)` vector, one
independent draw per cell in row-major order — reparametrised here per cell).
-/
def siemRaw (pv : List ℚ) (ec : List (List ℤ)) (u : Mat) : Mat := fun i j =>
  if 1 ≤ ecGet ec i j then bern (u i j) (pv.getD (ecGet ec i j - 1).toNat 0)
  else 0

/-- `siem(n, p, edge_comm, directed, loops)` from
`graspy/simulations/simulations.py`, on the binary path (`wt=None`; the weight
checks and per-edge weight multiplication concern no claim — `return_labels`
simply appends `edge_comm` to the result).  The validation order mirrors the
source: rectangular integer matrix, `K = edge_comm.max()` (numpy raises on a
zero-size reduction), the loops/no-loops community-numbering checks, then —
after the source rebinds `n = edge_comm.shape[0]`, never comparing it with the
passed `n`, which is unused from its type check onward — the squareness check,
the undirected symmetry check (which only builds a message and raises
nothing), and the probability checks.  The result carries
`edge_comm.shape[0]` as the matrix dimension. -/
def siem (n : ℕ) (p : PParam) (ec : List (List ℤ)) (directed loops : Bool)
    (u : Mat) : Except String (ℕ × Mat) :=
  if ecRectOk ec = false then .error "edge_comm must be a rectangular array"
  else
    match listMaxZ (ecEntries ec) with
    | none => .error "zero-size array to reduction operation"
    | some KZ =>
      if loops = true ∧ ecLoopsMinOk ec = false then .error "the minimum is not 1"
      else if loops = true ∧ ecLoopsSeqOk ec KZ = false then
        .error "the sequence is not consecutive"
      else if loops = false ∧ ecNoLoopsMinOk ec = false then
        .error "the off-diagonal minimum is not 1"
      else if loops = false ∧ ecDiagZeroOk ec = false then
        .error "diagonal elements should be zero"
      else if loops = false ∧ ecNoLoopsSeqOk ec KZ = false then
        .error "the sequence is not consecutive"
      else if ecSquareOk ec = false then .error "edge_comm should be square"
      else if pLenOk (resolveP p KZ.toNat) KZ.toNat = false then
        .error "probabilities and communities do not match"
      else if pValsOkV (resolveP p KZ.toNat) = false then
        .error "Values in p must be in between 0 and 1."
      else
        let A := siemRaw (resolveP p KZ.toNat) ec u
        .ok (ecRows ec, if directed then A else symmetrizeTriu A)

/-- Every fatal `siem` validation check at once (the dimension of the passed
`n` is, notably, nowhere among them). -/
def siemChecksOk (p : PParam) (ec : List (List ℤ)) (loops : Bool) : Bool :=
  ecRectOk ec &&
    match listMaxZ (ecEntries ec) with
    | none => false
    | some KZ =>
      (if loops then ecLoopsMinOk ec && ecLoopsSeqOk ec KZ
       else ecNoLoopsMinOk ec && ecDiagZeroOk ec && ecNoLoopsSeqOk ec KZ) &&
      ecSquareOk ec && pLenOk (resolveP p KZ.toNat) KZ.toNat &&
      pValsOkV (resolveP p KZ.toNat)

/-- A valid 3×3 loopless edge-community matrix, used against a vertex-count
argument of 5. -/
def ec3 : List (List ℤ) := [[0, 1, 1], [1, 0, 1], [1, 1, 0]]

/-- Constant uniform draws for the siem theorems. -/
def u0 : Mat := fun _ _ => 1

/-- A valid but asymmetric 2×2 loopless edge-community matrix. -/
def ec8 : List (List ℤ) := [[0, 1], [2, 0]]

/-- Community probabilities for the asymmetric-siem witness. -/
def p8 : PParam := .vec [0, 1]

/-- Modelled from the spec: `is_almost_symmetric` from the repository's
`utils` module (not under `src/`) — the symmetry check `fit` runs over every
input graph (its floating-point tolerance degenerates to exact equality over
exact rationals). -/
def is_almost_symmetric (nv : ℕ) (A : Mat) : Bool :=
  decide (∀ i, i < nv → ∀ j, j < nv → A i j = A j i)

/-- Modelled from the spec: the diagonal augmentation of `BaseEmbedMulti`
(not under `src/`) replaces each diagonal entry with the vertex's weighted
degree (its row sum). -/
def augment_diagonal (nv : ℕ) (A : Mat) : Mat := fun i j =>
  if i = j then ∑ k in Finset.range nv, A i k else A i j

/-- `U.T @ A @ V` over the leading `nv × nv` block. -/
def matTmulmul (nv : ℕ) (U A V : Mat) : Mat := fun r c =>
  ∑ i in Finset.range nv, ∑ j in Finset.range nv, U i r * A i j * V j c

/-- The fitted attributes `MultipleASE.fit` populates. -/
structure MASEFit : Type where
  latent_left : Mat
  latent_right : Option Mat
  scores : List Mat

/-- `MultipleASE.fit(graphs)` from `graspy/embed/mase.py`: determine
directedness by the symmetry check over all (original) graphs, replace
`graphs` by their diagonal-augmented versions when `diag_aug`, run the
two-stage SVD pipeline (`_reduce_dim`, whose external SVD and elbow-selection
collaborators the spec treats as opaque numeric primitives — here the oracle
`reduce_dim`, returning the pair `(Uhat, Vhat)`), and populate the fitted
attributes: for an undirected population `latent_right_` is `None` and the
scores are `Uhat.T @ graphs @ Uhat`; otherwise `latent_right_ = Vhat` and the
scores are `Uhat.T @ graphs @ Vhat` — `graphs` being, in both cases, the
augmented collection. -/
def MultipleASE_fit (nv : ℕ) (diag_aug : Bool)
    (reduce_dim : List Mat → Mat × Mat) (graphs : List Mat) : MASEFit :=
  let undirected := graphs.all (fun g => is_almost_symmetric nv g)
  let graphs2 := if diag_aug then graphs.map (augment_diagonal nv) else graphs
  let UV := reduce_dim graphs2
  if undirected then
    { latent_left := UV.1, latent_right := none,
      scores := graphs2.map (fun g => matTmulmul nv UV.1 g UV.1) }
  else
    { latent_left := UV.1, latent_right := some UV.2,
      scores := graphs2.map (fun g => matTmulmul nv UV.1 g UV.2) }

/-- The all-zero matrix (a default for list lookups). -/
def zeroMat : Mat := fun _ _ => 0

/-- A concrete symmetric loopless 2×2 graph. -/
def A0c5 : Mat := fun i j => if i < 2 ∧ j < 2 ∧ i ≠ j then 1 else 0

/-- The 2×2 identity as a latent-position oracle output. -/
def U0c5 : Mat := fun i j => if i = j then 1 else 0

/-- A concrete SVD-pipeline oracle returning the identity latent positions. -/
def rd0c5 : List Mat → Mat × Mat := fun _ => (U0c5, U0c5)

theorem bern_zero_or_one (u p : ℚ) : bern u p = 0 ∨ bern u p = 1 := by
  unfold bern; split <;> simp

theorem symmetrizeTriu_symm (A : Mat) (i j : ℕ) :
    symmetrizeTriu A i j = symmetrizeTriu A j i := by
  unfold symmetrizeTriu
  rcases le_or_lt i j with h | h
  · rcases le_or_lt j i with h' | h'
    · have : i = j := le_antisymm h h'
      subst this; rfl
    · rw [if_pos h, if_neg (not_le.mpr h')]
  · rw [if_neg (not_le.mpr h), if_pos h.le]

theorem sample_edges_undirected_symm (P u : Mat) (loops : Bool) (i j : ℕ) :
    sample_edges P u false loops i j = sample_edges P u false loops j i := by
  unfold sample_edges
  cases loops with
  | false =>
    simp only [Bool.false_eq_true, if_false]
    by_cases hij : i = j
    · subst hij; rfl
    · rw [if_neg hij, if_neg (fun h => hij h.symm), symmetrizeTriu_symm]
  | true =>
    simp only [Bool.false_eq_true, if_false, if_true]
    exact symmetrizeTriu_symm _ i j

theorem sample_edges_undirected_binary (P u : Mat) (loops : Bool) (i j : ℕ) :
    sample_edges P u false loops i j = 0 ∨ sample_edges P u false loops i j = 1 := by
  have hb : ∀ a b : ℕ,
      symmetrizeTriu (fun x y => if x ≤ y then bern (u x y) (P x y) else 0) a b = 0 ∨
      symmetrizeTriu (fun x y => if x ≤ y then bern (u x y) (P x y) else 0) a b = 1 := by
    intro a b
    unfold symmetrizeTriu
    dsimp only
    split
    · exact bern_zero_or_one _ _
    · split
      · exact bern_zero_or_one _ _
      · exact Or.inl rfl
  unfold sample_edges
  cases loops with
  | false =>
    simp only [Bool.false_eq_true, if_false]
    by_cases hij : i = j
    · rw [if_pos hij]; exact Or.inl rfl
    · rw [if_neg hij]; exact hb i j
  | true =>
    simp only [Bool.false_eq_true, if_false, if_true]
    exact hb i j

theorem sample_edges_no_loops_diag (P u : Mat) (directed : Bool) (i : ℕ) :
    sample_edges P u directed false i i = 0 := by
  unfold sample_edges
  simp

/-- C1: for every square probability matrix `P` (any dimension; the embedding's
matrices are total functions, so the output trivially has the same shape as
`P`), undirected `sample_edges` returns a matrix that is symmetric — each cell
and its mirror are governed by the single Bernoulli draw of the upper-triangle
cell — with every entry 0 or 1, and when `loops = false` the diagonal is
identically zero. -/
theorem sample_edges_undirected_spec (P u : Mat) (loops : Bool) :
    (∀ i j, sample_edges P u false loops i j = sample_edges P u false loops j i) ∧
    (∀ i j, sample_edges P u false loops i j = 0 ∨
            sample_edges P u false loops i j = 1) ∧
    (∀ i, sample_edges P u false false i i = 0) :=
  ⟨sample_edges_undirected_symm P u loops,
   sample_edges_undirected_binary P u loops,
   sample_edges_no_loops_diag P u false⟩

theorem dotRows_self_symm (d : ℕ) (X : Mat) (i j : ℕ) :
    dotRows d X X i j = dotRows d X X j i :=
  Finset.sum_congr rfl (fun k _ => mul_comm _ _)

theorem clip01_congr (A : Mat) {i j a b : ℕ} (h : A i j = A a b) :
    clip01 A i j = clip01 A a b := by
  unfold clip01
  dsimp only
  rw [h]

theorem clip01_bounds (A : Mat) (i j : ℕ) :
    0 ≤ clip01 A i j ∧ clip01 A i j ≤ 1 := by
  unfold clip01
  dsimp only
  by_cases h0 : A i j < 0
  · rw [if_pos h0]
    norm_num
  · rw [if_neg h0]
    by_cases h1 : 1 < A i j
    · rw [if_pos h1]
      norm_num
    · rw [if_neg h1]
      exact ⟨le_of_not_lt h0, le_of_not_lt h1⟩

theorem clip01_zero (A : Mat) {i j : ℕ} (h : A i j = 0) : clip01 A i j = 0 := by
  unfold clip01
  dsimp only
  rw [h]
  norm_num

/-- C4: with `Y` defaulting to `X`, `p_from_latent` is symmetric; with the
default clip policy (`rescale = false`) every entry lies in `[0,1]` for any
`X`, `Y`, `loops`; and with `loops = false` the diagonal is zero — in the
embedding the diagonal is zeroed on `P1`, before the clipping step, mirroring
the source order. -/
theorem p_from_latent_spec (nv d : ℕ) (X : Mat) :
    (∀ (loops : Bool) i j,
        p_from_latent nv d X none false loops i j
          = p_from_latent nv d X none false loops j i) ∧
    (∀ (Y : Option Mat) (loops : Bool) i j,
        0 ≤ p_from_latent nv d X Y false loops i j ∧
        p_from_latent nv d X Y false loops i j ≤ 1) ∧
    (∀ i, p_from_latent nv d X none false false i i = 0) := by
  refine ⟨?_, ?_, ?_⟩
  · intro loops i j
    simp only [p_from_latent, Bool.false_eq_true, if_false, Option.getD_none]
    cases loops with
    | false =>
      simp only [Bool.false_eq_true, if_false]
      apply clip01_congr
      unfold zeroDiag
      by_cases hij : i = j
      · subst hij; rfl
      · rw [if_neg hij, if_neg (fun h => hij h.symm)]
        exact dotRows_self_symm d X i j
    | true =>
      simp only [if_true]
      exact clip01_congr _ (dotRows_self_symm d X i j)
  · intro Y loops i j
    simp only [p_from_latent, Bool.false_eq_true, if_false]
    exact clip01_bounds _ i j
  · intro i
    simp only [p_from_latent, Bool.false_eq_true, if_false, Option.getD_none]
    apply clip01_zero
    unfold zeroDiag
    rw [if_pos rfl]

theorem sample_edges_undirected_entry (P u : Mat) {i j : ℕ} (hij : i ≤ j) (hne : i ≠ j) :
    sample_edges P u false false i j = bern (u i j) (P i j) := by
  unfold sample_edges symmetrizeTriu
  simp only [Bool.false_eq_true, if_false]
  rw [if_neg hne]
  rw [if_pos hij, if_pos hij]

theorem bern_of_prob_one {u : ℚ} (h : u < 1) : bern u 1 = 1 := if_pos h

theorem bern_of_prob_zero {u : ℚ} (h : 0 ≤ u) : bern u 0 = 0 := if_neg (not_lt.mpr h)

/-- C6: for symmetric `P` and `R` with entries in `[0,1]`, undirected loopless
`sample_edges_corr` returns two symmetric, binary, loopless matrices; `G2` is
sampled from the conditional matrix `P + R(1-P)` on cells where `G1` has an
edge and `P(1-R)` elsewhere; and when every entry of `R` is 1 (the uniform
draws lying in `[0,1)` as numpy's do), `G2` coincides with `G1`. -/
theorem sample_edges_corr_spec (P R u1 u2 : Mat)
    (hP : ∀ i j, 0 ≤ P i j ∧ P i j ≤ 1) (hPs : ∀ i j, P i j = P j i)
    (hRb : ∀ i j, 0 ≤ R i j ∧ R i j ≤ 1) (hRs : ∀ i j, R i j = R j i) :
    (∀ i j, (sample_edges_corr P R u1 u2 false false).1 i j
          = (sample_edges_corr P R u1 u2 false false).1 j i ∧
            (sample_edges_corr P R u1 u2 false false).2 i j
          = (sample_edges_corr P R u1 u2 false false).2 j i) ∧
    (∀ i j, ((sample_edges_corr P R u1 u2 false false).1 i j = 0 ∨
             (sample_edges_corr P R u1 u2 false false).1 i j = 1) ∧
            ((sample_edges_corr P R u1 u2 false false).2 i j = 0 ∨
             (sample_edges_corr P R u1 u2 false false).2 i j = 1)) ∧
    (∀ i, (sample_edges_corr P R u1 u2 false false).1 i i = 0 ∧
          (sample_edges_corr P R u1 u2 false false).2 i i = 0) ∧
    (sample_edges_corr P R u1 u2 false false).2
      = sample_edges (condProb P R (sample_edges P u1 false false)) u2 false false ∧
    ((∀ i j, R i j = 1) → (∀ i j, 0 ≤ u2 i j ∧ u2 i j < 1) →
      ∀ i j, (sample_edges_corr P R u1 u2 false false).2 i j
           = (sample_edges_corr P R u1 u2 false false).1 i j) := by
  refine ⟨fun i j => ⟨sample_edges_undirected_symm P u1 false i j,
                      sample_edges_undirected_symm _ u2 false i j⟩,
          fun i j => ⟨sample_edges_undirected_binary P u1 false i j,
                      sample_edges_undirected_binary _ u2 false i j⟩,
          fun i => ⟨sample_edges_no_loops_diag P u1 false i,
                    sample_edges_no_loops_diag _ u2 false i⟩,
          rfl, ?_⟩
  intro hR1 hu
  have key : ∀ a b : ℕ, a ≤ b →
      sample_edges (condProb P R (sample_edges P u1 false false)) u2 false false a b
        = sample_edges P u1 false false a b := by
    intro a b hab
    by_cases hne : a = b
    · subst hne
      rw [sample_edges_no_loops_diag, sample_edges_no_loops_diag]
    · rw [sample_edges_undirected_entry _ u2 hab hne]
      have hcp : condProb P R (sample_edges P u1 false false) a b
          = (if sample_edges P u1 false false a b = 1 then 1 else 0) := by
        unfold condProb
        rw [hR1 a b]
        split <;> ring
      rcases sample_edges_undirected_binary P u1 false a b with h0 | h1
      · rw [hcp, if_neg (by rw [h0]; norm_num), bern_of_prob_zero (hu a b).1, h0]
      · rw [hcp, if_pos h1, bern_of_prob_one (hu a b).2, h1]
  intro i j
  rcases le_total i j with hij | hji
  · exact key i j hij
  · calc sample_edges (condProb P R (sample_edges P u1 false false)) u2 false false i j
        = sample_edges (condProb P R (sample_edges P u1 false false)) u2 false false j i :=
          sample_edges_undirected_symm _ u2 false i j
      _ = sample_edges P u1 false false j i := key j i hji
      _ = sample_edges P u1 false false i j :=
          (sample_edges_undirected_symm P u1 false j i)

theorem sample_edges_corr_witness :
    (sample_edges_corr Pconst Rone uconst uconst false false).2 0 1
      = (sample_edges_corr Pconst Rone uconst uconst false false).1 0 1 :=
  (sample_edges_corr_spec Pconst Rone uconst uconst
      (fun i j => by norm_num [Pconst]) (fun i j => rfl)
      (fun i j => by norm_num [Rone]) (fun i j => rfl)).2.2.2.2
    (fun i j => rfl) (fun i j => by norm_num [uconst]) 0 1

instance (n : ℕ) (directed loops : Bool) (q : ℕ × ℕ) :
    Decidable (eligiblePair n directed loops q) := by
  unfold eligiblePair
  infer_instance

theorem assignLookup_const (chosen : List (ℕ × ℕ)) (c : ℚ) (v1 v2 : ℕ) :
    assignLookup (chosen.map (fun q => (q, c))) v1 v2
      = if (v1, v2) ∈ chosen then c else 0 := by
  unfold assignLookup
  by_cases hmem : (v1, v2) ∈ chosen
  · rw [if_pos hmem]
    have hsome : ((chosen.map (fun q => (q, c))).reverse.find?
        (fun x => decide (x.1 = (v1, v2)))).isSome := by
      rw [List.find?_isSome]
      refine ⟨((v1, v2), c), ?_, by simp⟩
      rw [List.mem_reverse, List.mem_map]
      exact ⟨(v1, v2), hmem, rfl⟩
    obtain ⟨x, hx⟩ := Option.isSome_iff_exists.mp hsome
    rw [hx]
    have hxmem := List.mem_of_find?_eq_some hx
    rw [List.mem_reverse, List.mem_map] at hxmem
    obtain ⟨q, _, rfl⟩ := hxmem
    rfl
  · rw [if_neg hmem]
    have hnone : (chosen.map (fun q => (q, c))).reverse.find?
        (fun x => decide (x.1 = (v1, v2))) = none := by
      rw [List.find?_eq_none]
      intro x hxmem
      rw [List.mem_reverse, List.mem_map] at hxmem
      obtain ⟨q, hq, rfl⟩ := hxmem
      simp only [decide_eq_true_eq]
      exact fun h => hmem (h ▸ hq)
    rw [hnone]

theorem filter_mem_eq_toFinset (n : ℕ) (chosen : List (ℕ × ℕ))
    (hb : ∀ q ∈ chosen, q.1 < n ∧ q.2 < n) :
    (Finset.range n ×ˢ Finset.range n).filter (fun q => q ∈ chosen)
      = chosen.toFinset := by
  ext q
  simp only [Finset.mem_filter, Finset.mem_product, Finset.mem_range, List.mem_toFinset]
  exact ⟨fun h => h.2, fun h => ⟨⟨(hb q h).1, (hb q h).2⟩, h⟩⟩

theorem nonzeroCount_indicator (n : ℕ) (chosen : List (ℕ × ℕ)) (hnd : chosen.Nodup)
    (hb : ∀ q ∈ chosen, q.1 < n ∧ q.2 < n) :
    nonzeroCount n (fun v1 v2 => if (v1, v2) ∈ chosen then (1 : ℚ) else 0)
      = chosen.length := by
  unfold nonzeroCount
  have hiff : ∀ q : ℕ × ℕ, ((if (q.1, q.2) ∈ chosen then (1 : ℚ) else 0) ≠ 0) ↔ q ∈ chosen := by
    intro q
    rw [Prod.mk.eta]
    split
    · rename_i h; simpa using h
    · rename_i h; simpa using h
  rw [Finset.filter_congr (fun q _ => hiff q), filter_mem_eq_toFinset n chosen hb,
    List.toFinset_card_of_nodup hnd]

theorem filter_lower_eq_image (n : ℕ) (chosen : List (ℕ × ℕ))
    (hb : ∀ q ∈ chosen, q.1 < n ∧ q.2 < n) :
    (Finset.range n ×ˢ Finset.range n).filter
        (fun q => q.2 < q.1 ∧ (q.2, q.1) ∈ chosen)
      = (chosen.toFinset.filter (fun q => q.1 < q.2)).image Prod.swap := by
  ext q
  obtain ⟨a, b⟩ := q
  simp only [Finset.mem_filter, Finset.mem_product, Finset.mem_range,
    Finset.mem_image, List.mem_toFinset]
  constructor
  · rintro ⟨⟨_, _⟩, hlt, hmem⟩
    exact ⟨(b, a), ⟨hmem, hlt⟩, rfl⟩
  · rintro ⟨⟨y1, y2⟩, ⟨hymem, hylt⟩, heq⟩
    rw [Prod.swap_prod_mk, Prod.mk.injEq] at heq
    obtain ⟨rfl, rfl⟩ := heq
    exact ⟨⟨(hb _ hymem).2, (hb _ hymem).1⟩, hylt, hymem⟩

theorem diagChosen_eq_card (chosen : List (ℕ × ℕ)) (hnd : chosen.Nodup) :
    diagChosen chosen = (chosen.toFinset.filter (fun q => q.1 = q.2)).card := by
  unfold diagChosen
  rw [← List.toFinset_card_of_nodup (hnd.filter _), List.toFinset_filter]
  congr 1
  apply Finset.filter_congr
  intro q _
  simp

theorem nonzeroCount_symmTriu (n : ℕ) (chosen : List (ℕ × ℕ)) (hnd : chosen.Nodup)
    (hb : ∀ q ∈ chosen, q.1 < n ∧ q.2 < n) (hup : ∀ q ∈ chosen, q.1 ≤ q.2) :
    nonzeroCount n (symmetrizeTriu (fun v1 v2 => if (v1, v2) ∈ chosen then (1 : ℚ) else 0))
      = 2 * chosen.length - diagChosen chosen := by
  unfold nonzeroCount
  have hiff : ∀ q : ℕ × ℕ,
      (symmetrizeTriu (fun v1 v2 => if (v1, v2) ∈ chosen then (1 : ℚ) else 0) q.1 q.2 ≠ 0)
        ↔ ((q.1 ≤ q.2 ∧ q ∈ chosen) ∨ (q.2 < q.1 ∧ (q.2, q.1) ∈ chosen)) := by
    intro q
    unfold symmetrizeTriu
    dsimp only
    by_cases hle : q.1 ≤ q.2
    · rw [if_pos hle, Prod.mk.eta]
      constructor
      · intro h
        left
        refine ⟨hle, ?_⟩
        by_contra hq
        rw [if_neg hq] at h
        exact h rfl
      · rintro (⟨_, hq⟩ | ⟨hlt, _⟩)
        · rw [if_pos hq]; norm_num
        · exact absurd hlt (not_lt.mpr hle)
    · rw [if_neg hle]
      have hlt := not_le.mp hle
      constructor
      · intro h
        right
        refine ⟨hlt, ?_⟩
        by_contra hq
        rw [if_neg hq] at h
        exact h rfl
      · rintro (⟨hle', _⟩ | ⟨_, hq⟩)
        · exact absurd hle' hle
        · rw [if_pos hq]; norm_num
  rw [Finset.filter_congr (fun q _ => hiff q), Finset.filter_or]
  have hdisj : Disjoint
      ((Finset.range n ×ˢ Finset.range n).filter (fun q => q.1 ≤ q.2 ∧ q ∈ chosen))
      ((Finset.range n ×ˢ Finset.range n).filter
        (fun q => q.2 < q.1 ∧ (q.2, q.1) ∈ chosen)) := by
    rw [Finset.disjoint_left]
    rintro q hq1 hq2
    rw [Finset.mem_filter] at hq1 hq2
    exact absurd hq2.2.1 (not_lt.mpr hq1.2.1)
  rw [Finset.card_union_of_disjoint hdisj]
  have h1 : ((Finset.range n ×ˢ Finset.range n).filter
      (fun q => q.1 ≤ q.2 ∧ q ∈ chosen)).card = chosen.length := by
    have hiffm : ∀ q ∈ Finset.range n ×ˢ Finset.range n,
        (q.1 ≤ q.2 ∧ q ∈ chosen ↔ q ∈ chosen) :=
      fun q _ => ⟨fun h => h.2, fun h => ⟨hup q h, h⟩⟩
    rw [Finset.filter_congr hiffm, filter_mem_eq_toFinset n chosen hb,
      List.toFinset_card_of_nodup hnd]
  have h2 : ((Finset.range n ×ˢ Finset.range n).filter
      (fun q => q.2 < q.1 ∧ (q.2, q.1) ∈ chosen)).card
      = chosen.length - diagChosen chosen := by
    rw [filter_lower_eq_image n chosen hb,
      Finset.card_image_of_injective _ Prod.swap_injective]
    have hsplit : (chosen.toFinset.filter (fun q : ℕ × ℕ => q.1 < q.2)).card
        + (chosen.toFinset.filter (fun q : ℕ × ℕ => ¬ q.1 < q.2)).card
        = chosen.toFinset.card :=
      Finset.filter_card_add_filter_neg_card_eq_card (fun q : ℕ × ℕ => q.1 < q.2)
    have hneg : chosen.toFinset.filter (fun q : ℕ × ℕ => ¬ q.1 < q.2)
        = chosen.toFinset.filter (fun q => q.1 = q.2) := by
      apply Finset.filter_congr
      intro q hq
      rw [List.mem_toFinset] at hq
      have := hup q hq
      constructor
      · intro h; exact le_antisymm this (not_lt.mp h)
      · intro h; rw [h]; exact lt_irrefl _
    rw [hneg] at hsplit
    rw [List.toFinset_card_of_nodup hnd] at hsplit
    rw [← diagChosen_eq_card chosen hnd] at hsplit
    omega
  rw [h1, h2]
  have hle : diagChosen chosen ≤ chosen.length := by
    unfold diagChosen
    exact List.length_filter_le _ _
  omega

/-- C2: for `0 < m ≤ max_edges(n, directed, loops)` and the default weight 1,
`er_nm` succeeds, and the returned matrix has exactly `m` nonzero entries in
the directed case and `2m` minus the number of chosen diagonal pairs in the
undirected case; for any requested count exceeding the maximum the call fails
with an error.  The hypotheses on `chosen` are the contract of
`np.random.choice(..., replace=False)` over the eligible index set. -/
theorem er_nm_edge_count_spec (n m : ℕ) (directed loops : Bool)
    (chosen : List (ℕ × ℕ))
    (hn : 0 < n) (hm : 0 < m) (hmax : m ≤ max_edges n directed loops)
    (hlen : chosen.length = m) (hnd : chosen.Nodup)
    (helig : ∀ q ∈ chosen, eligiblePair n directed loops q) :
    (∃ A, er_nm n m directed loops (.intConst 1) chosen = .ok A ∧
        nonzeroCount n A = (if directed then m else 2 * m - diagChosen chosen)) ∧
    (∀ m', max_edges n directed loops < m' →
        ∃ e, er_nm n m' directed loops (.intConst 1) chosen = .error e) := by
  have hb : ∀ q ∈ chosen, q.1 < n ∧ q.2 < n :=
    fun q hq => ⟨(helig q hq).1, (helig q hq).2.1⟩
  have hA : assignLookup (chosen.map (fun q => (q, (1 : ℚ))))
      = fun v1 v2 => if (v1, v2) ∈ chosen then (1 : ℚ) else 0 :=
    funext fun v1 => funext fun v2 => assignLookup_const chosen 1 v1 v2
  constructor
  · have hval : er_nm n m directed loops (.intConst 1) chosen
        = .ok (if directed then assignLookup (chosen.map (fun q => (q, (1 : ℚ))))
               else symmetrizeTriu (assignLookup (chosen.map (fun q => (q, (1 : ℚ)))))) := by
      unfold er_nm
      rw [if_neg hm.ne', if_neg hn.ne', if_neg (by simp [wtIsFloat]),
        if_neg (not_lt.mpr hmax)]
      norm_num
    refine ⟨_, hval, ?_⟩
    subst hlen
    cases directed with
    | true =>
      simp only [if_true]
      rw [hA]
      exact nonzeroCount_indicator n chosen hnd hb
    | false =>
      simp only [Bool.false_eq_true, if_false]
      rw [hA]
      apply nonzeroCount_symmTriu n chosen hnd hb
      intro q hq
      rcases (helig q hq).2.2 with ⟨hdt, _⟩ | ⟨_, _, hle⟩ | ⟨_, _, hlt⟩
      · cases hdt
      · exact hle
      · exact hlt.le
  · intro m' hm'
    refine ⟨"number of edges exceeding the maximum", ?_⟩
    unfold er_nm
    rw [if_neg (lt_of_le_of_lt (Nat.zero_le _) hm').ne', if_neg hn.ne',
      if_neg (by simp [wtIsFloat]), if_pos hm']

theorem er_nm_edge_count_witness :
    (∃ A, er_nm 3 2 false false (.intConst 1) [(0, 1), (1, 2)] = .ok A ∧
        nonzeroCount 3 A = (if false then 2 else 2 * 2 - diagChosen [(0, 1), (1, 2)])) ∧
    (∀ m', max_edges 3 false false < m' →
        ∃ e, er_nm 3 m' false false (.intConst 1) [(0, 1), (1, 2)] = .error e) :=
  er_nm_edge_count_spec 3 2 false false [(0, 1), (1, 2)]
    (by decide) (by decide) (by decide) (by decide) (by decide) (by decide)

/-- C3: `er_np` is a pure delegation to the single-block SBM: for every input
accepted by its own validation (any weight, degree correction and flag
combination shared by both functions, with the identical random oracle), its
result is exactly `sbm([n], [[p]], ...)`. -/
theorem er_np_delegates_to_sbm (n : ℕ) (p : ℚ) (directed loops : Bool) (wt : Wt)
    (dc : Option (List ℚ)) (r : SbmRand) (hdc : dc ≠ some []) :
    er_np n p directed loops wt dc r
      = sbm [n] [[p]] directed loops wt dc r false := by
  unfold er_np
  rw [if_neg hdc]

theorem er_np_delegates_witness :
    er_np 2 (1 / 2) false false (.intConst 1) none r0
      = sbm [2] [[1 / 2]] false false (.intConst 1) none r0 false :=
  er_np_delegates_to_sbm 2 (1 / 2) false false (.intConst 1) none r0 (by decide)

theorem sbmStep_error (n : List ℕ) (p : List (List ℚ)) (wt : Wt)
    (dcP : Option (List ℚ)) (r : SbmRand) (e : String) (bij : ℕ × ℕ) :
    sbmStep n p wt dcP r (.error e) bij = .error e := rfl

theorem foldl_sbmStep_error (n : List ℕ) (p : List (List ℚ)) (wt : Wt)
    (dcP : Option (List ℚ)) (r : SbmRand) (e : String) :
    ∀ l : List (ℕ × ℕ), l.foldl (sbmStep n p wt dcP r) (.error e) = .error e
  | [] => rfl
  | x :: xs => by
      rw [List.foldl_cons, sbmStep_error]
      exact foldl_sbmStep_error n p wt dcP r e xs

theorem blockPairsList_head (K : ℕ) (hK : K ≠ 0) (directed : Bool) :
    ∃ t, blockPairsList K directed = (0, 0) :: t := by
  obtain ⟨k, rfl⟩ := Nat.exists_eq_succ_of_ne_zero hK
  unfold blockPairsList
  cases directed with
  | true =>
    rw [List.range_succ_eq_map, List.flatMap_cons]
    simp only [if_true]
    rw [List.map_cons, List.cons_append]
    exact ⟨_, rfl⟩
  | false =>
    rw [List.range_succ_eq_map, List.flatMap_cons]
    simp only [Bool.false_eq_true, if_false, List.drop_zero]
    rw [List.map_cons, List.cons_append]
    exact ⟨_, rfl⟩

theorem sbmAssignments_float (n : List ℕ) (p : List (List ℚ)) (directed : Bool)
    (q : ℚ) (dcP : Option (List ℚ)) (r : SbmRand) (hn : n ≠ []) :
    sbmAssignments n p directed (.floatConst q) dcP r
      = .error "TypeError: object is not callable" := by
  unfold sbmAssignments
  obtain ⟨t, ht⟩ := blockPairsList_head n.length
    (fun h => hn (List.length_eq_zero.mp h)) directed
  rw [ht, List.foldl_cons]
  have h1 : sbmStep n p (.floatConst q) dcP r (.ok []) (0, 0)
      = .error "TypeError: object is not callable" := rfl
  rw [h1]
  exact foldl_sbmStep_error n p (.floatConst q) dcP r _ t

theorem isOkE_iff {α : Type} (e : Except String α) :
    isOkE e = true ↔ ∃ x, e = .ok x := by
  cases e with
  | error e => simp [isOkE]
  | ok x => simp [isOkE]

theorem foldl_sbmStep_int_ok (n : List ℕ) (p : List (List ℚ)) (z : ℤ)
    (dcP : Option (List ℚ)) (r : SbmRand) :
    ∀ (bl : List (ℕ × ℕ)) (l : List ((ℕ × ℕ) × ℚ)),
      isOkE (bl.foldl (sbmStep n p (.intConst z) dcP r) (.ok l)) = true
  | [], _ => rfl
  | x :: xs, l => by
      rw [List.foldl_cons]
      have h2 : sbmStep n p (.intConst z) dcP r (.ok l) x
          = .ok (l ++ (blockEdges r dcP (pGet p x.1 x.2) x.1 x.2
              (cartprod (blockRange n x.1) (blockRange n x.2))).map
                (fun c => (c, (z : ℚ)))) := rfl
      rw [h2]
      exact foldl_sbmStep_int_ok n p z dcP r xs _

/-- C10: a numeric `wt` that is not a Python `int` — e.g. the float constant —
passes all of `sbm`'s input validation but raises a `TypeError` in the
sampling loop, where any per-block weight whose type is not exactly `int` is
invoked as a function; an `int` constant, under the same valid inputs, yields
a returned graph. -/
theorem sbm_float_wt_type_error (n : List ℕ) (p : List (List ℚ))
    (directed loops : Bool) (q : ℚ) (z : ℤ) (r : SbmRand) (rl : Bool)
    (hn : n ≠ []) (h1 : pShapeOk n p = true) (h2 : pValsOk p = true)
    (h3 : directed = false → pSymmOk p = true) :
    sbm n p directed loops (.floatConst q) none r rl
        = .error "TypeError: object is not callable" ∧
    isOkE (sbm n p directed loops (.intConst z) none r rl) = true := by
  have hsym : ¬ (directed = false ∧ pSymmOk p = false) := by
    rintro ⟨hd, hs⟩
    rw [h3 hd] at hs
    cases hs
  constructor
  · unfold sbm
    rw [if_neg (by rw [h1]; simp), if_neg (by rw [h2]; simp), if_neg hsym,
      if_neg (by simp [dcSizeOk]), if_neg (by simp [dcNonnegOk]),
      sbmAssignments_float n p directed q _ r hn]
    rfl
  · unfold sbm
    rw [if_neg (by rw [h1]; simp), if_neg (by rw [h2]; simp), if_neg hsym,
      if_neg (by simp [dcSizeOk]), if_neg (by simp [dcNonnegOk])]
    obtain ⟨a, ha⟩ := (isOkE_iff _).mp
      (foldl_sbmStep_int_ok n p z (Option.map (dcNormalize n) none) r
        (blockPairsList n.length directed) [])
    rw [show sbmAssignments n p directed (.intConst z)
        (Option.map (dcNormalize n) none) r
        = (blockPairsList n.length directed).foldl
            (sbmStep n p (.intConst z) (Option.map (dcNormalize n) none) r)
            (.ok []) from rfl, ha]
    rfl

theorem sbm_float_wt_witness :
    sbm [2] [[0]] false false (.floatConst (1 / 2)) none r0 false
        = .error "TypeError: object is not callable" ∧
    isOkE (sbm [2] [[0]] false false (.intConst 1) none r0 false) = true :=
  sbm_float_wt_type_error [2] [[0]] false false (1 / 2) 1 r0 false
    (by decide) (by decide) (by decide) (fun _ => by decide)

theorem prefixSum_le_succ (n : List ℕ) (a : ℕ) :
    prefixSum n a ≤ prefixSum n (a + 1) := by
  unfold prefixSum
  rw [List.take_succ, List.sum_append]
  exact Nat.le_add_right _ _

theorem prefixSum_mono (n : List ℕ) {a b : ℕ} (h : a ≤ b) :
    prefixSum n a ≤ prefixSum n b := by
  induction h with
  | refl => exact le_refl _
  | step _ ih => exact le_trans ih (prefixSum_le_succ n _)

theorem prefixSum_le_sum (n : List ℕ) (k : ℕ) : prefixSum n k ≤ n.sum := by
  conv_rhs => rw [← List.take_append_drop k n]
  rw [List.sum_append]
  exact Nat.le_add_right _ _

theorem foldl_pick_of_not {cond : ℕ → Prop} [DecidablePred cond] :
    ∀ (l : List ℕ) (a : ℕ), (∀ i ∈ l, ¬ cond i) →
      l.foldl (fun acc i => if cond i then i else acc) a = a
  | [], _, _ => rfl
  | x :: xs, a, h => by
      rw [List.foldl_cons, if_neg (h x (List.mem_cons_self x xs))]
      exact foldl_pick_of_not xs a (fun i hi => h i (List.mem_cons_of_mem x hi))

theorem foldl_pick_unique {cond : ℕ → Prop} [DecidablePred cond] (k : ℕ) :
    ∀ (l : List ℕ), (∀ i ∈ l, cond i → i = k) → k ∈ l → cond k →
      ∀ a, l.foldl (fun acc i => if cond i then i else acc) a = k
  | [], _, h2, _ => absurd h2 (List.not_mem_nil k)
  | x :: xs, h1, h2, hk => by
      intro a
      rw [List.foldl_cons]
      by_cases hx : cond x
      · have hxk : x = k := h1 x (List.mem_cons_self x xs) hx
        subst hxk
        rw [if_pos hx]
        by_cases hmem : x ∈ xs
        · exact foldl_pick_unique x xs
            (fun i hi hc => h1 i (List.mem_cons_of_mem x hi) hc) hmem hk x
        · exact foldl_pick_of_not xs x (fun i hi hc =>
            hmem ((h1 i (List.mem_cons_of_mem x hi) hc) ▸ hi))
      · rw [if_neg hx]
        have h2' : k ∈ xs := by
          rcases List.mem_cons.mp h2 with rfl | h
          · exact absurd hk hx
          · exact h
        exact foldl_pick_unique k xs
          (fun i hi hc => h1 i (List.mem_cons_of_mem x hi) hc) h2' hk a

theorem n_to_labels_length (n : List ℕ) : (n_to_labels n).length = n.sum := by
  unfold n_to_labels
  rw [List.length_map, List.length_range]

theorem n_to_labels_getD (n : List ℕ) (k v : ℕ) (hk : k < n.length)
    (h1 : prefixSum n k ≤ v) (h2 : v < prefixSum n (k + 1)) :
    (n_to_labels n).getD v 0 = k := by
  have hv : v < n.sum := lt_of_lt_of_le h2 (prefixSum_le_sum n (k + 1))
  unfold n_to_labels
  rw [List.getD_eq_getElem?_getD, List.getElem?_map, List.getElem?_range hv]
  simp only [Option.map_some', Option.getD_some]
  rcases Nat.eq_zero_or_pos k with rfl | hk1
  · apply foldl_pick_of_not
    rintro i _ ⟨hi1, hi2, _⟩
    exact absurd h2 (not_lt.mpr (le_trans (prefixSum_mono n hi1) hi2))
  · apply foldl_pick_unique
    · rintro i _ ⟨hi1, hi2, hi3⟩
      rcases lt_trichotomy i k with hik | rfl | hik
      · exact absurd (lt_of_le_of_lt h1 hi3)
          (not_lt.mpr (prefixSum_mono n hik))
      · rfl
      · exact absurd (lt_of_le_of_lt hi2 h2)
          (not_lt.mpr (prefixSum_mono n hik))
    · exact List.mem_range.mpr hk
    · exact ⟨hk1, h1, h2⟩

theorem sbm_ok_labels (n : List ℕ) (p : List (List ℚ)) (directed loops : Bool)
    (wt : Wt) (dc : Option (List ℚ)) (r : SbmRand) (x : Mat × Option (List ℕ))
    (hx : sbm n p directed loops wt dc r true = .ok x) :
    x.2 = some (n_to_labels n) := by
  unfold sbm at hx
  split at hx
  · exact Except.noConfusion hx
  · split at hx
    · exact Except.noConfusion hx
    · split at hx
      · exact Except.noConfusion hx
      · split at hx
        · exact Except.noConfusion hx
        · split at hx
          · exact Except.noConfusion hx
          · cases hasg : sbmAssignments n p directed wt
                (Option.map (dcNormalize n) dc) r with
            | error e =>
              rw [hasg] at hx
              exact Except.noConfusion hx
            | ok a =>
              rw [hasg] at hx
              injection hx with h
              rw [← h]
              rfl

/-- C9: whenever `sbm(n, p, ..., return_labels=True)` returns, the label
component is exactly `_n_to_labels(n)`: a vector of length `sum(n)` whose
entries on the contiguous index range `[prefixSum n k, prefixSum n (k+1))` —
block `k` in declaration order — all equal `k`. -/
theorem sbm_return_labels_spec (n : List ℕ) (p : List (List ℚ))
    (directed loops : Bool) (wt : Wt) (dc : Option (List ℚ)) (r : SbmRand)
    (h : isOkE (sbm n p directed loops wt dc r true) = true) :
    exceptLabels (sbm n p directed loops wt dc r true) = some (n_to_labels n) ∧
    (n_to_labels n).length = n.sum ∧
    (∀ k, k < n.length → ∀ v, prefixSum n k ≤ v → v < prefixSum n (k + 1) →
        (n_to_labels n).getD v 0 = k) := by
  refine ⟨?_, n_to_labels_length n,
    fun k hk v h1 h2 => n_to_labels_getD n k v hk h1 h2⟩
  obtain ⟨x, hx⟩ := (isOkE_iff _).mp h
  rw [hx]
  exact sbm_ok_labels n p directed loops wt dc r x hx

theorem sbm_return_labels_witness :
    exceptLabels (sbm [1, 2] [[0, 0], [0, 0]] false false (.intConst 1) none r0 true)
        = some (n_to_labels [1, 2]) ∧
    (n_to_labels [1, 2]).getD 2 0 = 1 :=
  ⟨(sbm_return_labels_spec [1, 2] [[0, 0], [0, 0]] false false (.intConst 1)
      none r0 (by decide)).1,
   (sbm_return_labels_spec [1, 2] [[0, 0], [0, 0]] false false (.intConst 1)
      none r0 (by decide)).2.2 1 (by decide) 2 (by decide) (by decide)⟩

theorem siem_ok_dim (n : ℕ) (p : PParam) (ec : List (List ℤ))
    (directed loops : Bool) (u : Mat) (x : ℕ × Mat)
    (hx : siem n p ec directed loops u = .ok x) : x.1 = ecRows ec := by
  unfold siem at hx
  repeat' split at hx
  any_goals exact Except.noConfusion hx
  all_goals injection hx with h
  all_goals rw [← h]

/-- C7 counterexample: `siem` called with vertex count 5 and an otherwise
valid 3×3 community matrix raises nothing — it returns an adjacency matrix of
dimension 3, not 5 (no error and a matrix of a size other than `n`,
contradicting both parts of the claim). -/
theorem siem_dimension_mismatch_cex :
    Except.map Prod.fst (siem 5 (.scalar 0) ec3 false false u0) = .ok 3 ∧
    (3 : ℕ) ≠ 5 :=
  ⟨rfl, by decide⟩

/-- C7 amended: `siem` never validates the passed vertex count `n` against
`edge_comm` — the source rebinds `n = edge_comm.shape[0]`, so the result is
entirely independent of the `n` argument, and every successful call returns a
matrix of `edge_comm`'s dimension (not necessarily `n × n`). -/
theorem siem_ignores_n_amended (n1 n2 : ℕ) (p : PParam) (ec : List (List ℤ))
    (directed loops : Bool) (u : Mat) :
    siem n1 p ec directed loops u = siem n2 p ec directed loops u ∧
    (isOkE (siem n1 p ec directed loops u) = true →
      Except.map Prod.fst (siem n1 p ec directed loops u) = .ok (ecRows ec)) := by
  refine ⟨rfl, fun h => ?_⟩
  obtain ⟨x, hx⟩ := (isOkE_iff _).mp h
  have hd := siem_ok_dim n1 p ec directed loops u x hx
  rw [hx, ← hd]
  rfl

theorem siem_ignores_n_witness :
    siem 5 (.scalar 0) ec3 false false u0 = siem 3 (.scalar 0) ec3 false false u0 ∧
    Except.map Prod.fst (siem 5 (.scalar 0) ec3 false false u0)
      = .ok (ecRows ec3) :=
  ⟨(siem_ignores_n_amended 5 3 (.scalar 0) ec3 false false u0).1,
   (siem_ignores_n_amended 5 3 (.scalar 0) ec3 false false u0).2 (by rfl)⟩

theorem siem_checks_ok_sound (n : ℕ) (p : PParam) (ec : List (List ℤ))
    (loops : Bool) (u : Mat) (hch : siemChecksOk p ec loops = true) :
    siem n p ec false loops u
      = .ok (ecRows ec, symmetrizeTriu (siemRaw (resolveP p (siemK ec)) ec u)) := by
  unfold siemChecksOk at hch
  rw [Bool.and_eq_true] at hch
  obtain ⟨hrect, hrest⟩ := hch
  unfold siem
  rw [if_neg (by rw [hrect]; simp)]
  cases hmax : listMaxZ (ecEntries ec) with
  | none => rw [hmax] at hrest; cases hrest
  | some KZ =>
    rw [hmax] at hrest
    rw [Bool.and_eq_true, Bool.and_eq_true, Bool.and_eq_true] at hrest
    obtain ⟨⟨⟨hloops, hsq⟩, hplen⟩, hpvals⟩ := hrest
    have hK : siemK ec = KZ.toNat := by unfold siemK; rw [hmax]; rfl
    dsimp only
    rw [hK]
    cases loops with
    | true =>
      simp only [if_true] at hloops
      rw [Bool.and_eq_true] at hloops
      obtain ⟨hmin, hseq⟩ := hloops
      rw [if_neg (by rintro ⟨_, hx⟩; rw [hmin] at hx; cases hx),
        if_neg (by rintro ⟨_, hx⟩; rw [hseq] at hx; cases hx),
        if_neg (by rintro ⟨hx, _⟩; cases hx),
        if_neg (by rintro ⟨hx, _⟩; cases hx),
        if_neg (by rintro ⟨hx, _⟩; cases hx),
        if_neg (by rw [hsq]; simp),
        if_neg (by rw [hplen]; simp),
        if_neg (by rw [hpvals]; simp)]
      simp only [Bool.false_eq_true, if_false]
    | false =>
      simp only [Bool.false_eq_true, if_false] at hloops
      rw [Bool.and_eq_true, Bool.and_eq_true] at hloops
      obtain ⟨⟨hmin, hdiag⟩, hseq⟩ := hloops
      rw [if_neg (by rintro ⟨hx, _⟩; cases hx),
        if_neg (by rintro ⟨hx, _⟩; cases hx),
        if_neg (by rintro ⟨_, hx⟩; rw [hmin] at hx; cases hx),
        if_neg (by rintro ⟨_, hx⟩; rw [hdiag] at hx; cases hx),
        if_neg (by rintro ⟨_, hx⟩; rw [hseq] at hx; cases hx),
        if_neg (by rw [hsq]; simp),
        if_neg (by rw [hplen]; simp),
        if_neg (by rw [hpvals]; simp)]
      simp only [Bool.false_eq_true, if_false]

/-- C8: an asymmetric `edge_comm` that passes every other validation check
raises no error in undirected `siem`: the symmetry check of the source only
constructs an error message, and the call proceeds to return the sampled,
upper-triangle-symmetrized adjacency matrix. -/
theorem siem_asymmetric_no_raise (n : ℕ) (p : PParam) (ec : List (List ℤ))
    (loops : Bool) (u : Mat) (hch : siemChecksOk p ec loops = true)
    (hasym : ¬ ∀ i j, ecGet ec i j = ecGet ec j i) :
    isOkE (siem n p ec false loops u) = true ∧
    siem n p ec false loops u
      = .ok (ecRows ec, symmetrizeTriu (siemRaw (resolveP p (siemK ec)) ec u)) := by
  have h := siem_checks_ok_sound n p ec loops u hch
  exact ⟨by rw [h]; rfl, h⟩

theorem siem_asymmetric_no_raise_witness :
    isOkE (siem 2 p8 ec8 false false u0) = true ∧
    siem 2 p8 ec8 false false u0
      = .ok (ecRows ec8, symmetrizeTriu (siemRaw (resolveP p8 (siemK ec8)) ec8 u0)) :=
  siem_asymmetric_no_raise 2 p8 ec8 false u0 (by decide)
    (fun h => absurd (h 0 1) (by decide))

theorem getD_map_lt {α β : Type} (f : α → β) (l : List α) (k : ℕ)
    (hk : k < l.length) (d : β) (d' : α) :
    (l.map f).getD k d = f (l.getD k d') := by
  rw [List.getD_eq_getElem?_getD, List.getElem?_map, List.getElem?_eq_getElem hk,
    Option.map_some', Option.getD_some, List.getD_eq_getElem?_getD,
    List.getElem?_eq_getElem hk, Option.getD_some]

theorem graphs2_length (nv : ℕ) (da : Bool) (graphs : List Mat) :
    (if da then graphs.map (augment_diagonal nv) else graphs).length
      = graphs.length := by
  cases da with
  | false => rfl
  | true => exact List.length_map _ _

theorem graphs2_getD (nv : ℕ) (da : Bool) (graphs : List Mat) (k : ℕ)
    (hk : k < graphs.length) :
    (if da then graphs.map (augment_diagonal nv) else graphs).getD k zeroMat
      = (if da then augment_diagonal nv (graphs.getD k zeroMat)
         else graphs.getD k zeroMat) := by
  cases da with
  | false => rfl
  | true => exact getD_map_lt _ graphs k hk _ _

/-- C5 counterexample: with the default diagonal augmentation, the fitted
score of a symmetric input graph is not `Uᵗ·A·U` for the *input* graph `A`
(here at entry (0,0): the score is computed from the augmented graph, whose
diagonal has been replaced by degrees). -/
theorem mase_scores_input_graph_cex :
    ¬ ((MultipleASE_fit 2 true rd0c5 [A0c5]).scores.getD 0 zeroMat 0 0
        = matTmulmul 2 (MultipleASE_fit 2 true rd0c5 [A0c5]).latent_left A0c5
            (MultipleASE_fit 2 true rd0c5 [A0c5]).latent_left 0 0) := by
  show ¬ (matTmulmul 2 U0c5 (augment_diagonal 2 A0c5) U0c5 0 0
          = matTmulmul 2 U0c5 A0c5 U0c5 0 0)
  have e1 : ∀ A : Mat, matTmulmul 2 U0c5 A U0c5 0 0 = A 0 0 := by
    intro A
    simp [matTmulmul, U0c5, Finset.sum_range_succ]
  rw [e1, e1]
  intro h
  have hA00 : A0c5 0 0 = 0 := by simp [A0c5]
  have hA01 : A0c5 0 1 = 1 := by norm_num [A0c5]
  have haug : augment_diagonal 2 A0c5 0 0 = 1 := by
    unfold augment_diagonal
    rw [if_pos rfl, Finset.sum_range_succ, Finset.sum_range_succ,
      Finset.sum_range_zero, hA00, hA01]
    norm_num
  rw [haug, hA00] at h
  norm_num at h

/-- C5 amended: after `MultipleASE.fit(graphs)`, when every input graph is
(almost) symmetric, `latent_right_` is `None` and the score of graph `i` is
`Uᵗ·Ã_i·U` where `U` is `latent_left_` and `Ã_i` is the *diagonal-augmented*
graph `i` (the input graph itself exactly when `diag_aug=False`); when at
least one graph is asymmetric, `latent_right_` is set to the right latent
positions `V` and the scores are `Uᵗ·Ã_i·V`. -/
theorem mase_fit_spec_amended (nv : ℕ) (da : Bool)
    (rd : List Mat → Mat × Mat) (graphs : List Mat) :
    (graphs.all (fun g => is_almost_symmetric nv g) = true →
      (MultipleASE_fit nv da rd graphs).latent_right = none ∧
      ∀ k, k < graphs.length →
        (MultipleASE_fit nv da rd graphs).scores.getD k zeroMat
          = matTmulmul nv (MultipleASE_fit nv da rd graphs).latent_left
              (if da then augment_diagonal nv (graphs.getD k zeroMat)
               else graphs.getD k zeroMat)
              (MultipleASE_fit nv da rd graphs).latent_left) ∧
    (graphs.all (fun g => is_almost_symmetric nv g) = false →
      (MultipleASE_fit nv da rd graphs).latent_right
          = some (rd (if da then graphs.map (augment_diagonal nv) else graphs)).2 ∧
      ∀ k, k < graphs.length →
        (MultipleASE_fit nv da rd graphs).scores.getD k zeroMat
          = matTmulmul nv (MultipleASE_fit nv da rd graphs).latent_left
              (if da then augment_diagonal nv (graphs.getD k zeroMat)
               else graphs.getD k zeroMat)
              (rd (if da then graphs.map (augment_diagonal nv) else graphs)).2) := by
  constructor
  · intro hall
    unfold MultipleASE_fit
    simp only [hall]
    rw [if_pos trivial]
    refine ⟨rfl, fun k hk => ?_⟩
    dsimp only
    rw [getD_map_lt _ _ k (by rw [graphs2_length]; exact hk) zeroMat zeroMat,
      graphs2_getD nv da graphs k hk]
  · intro hall
    unfold MultipleASE_fit
    simp only [hall]
    rw [if_neg Bool.false_ne_true]
    refine ⟨rfl, fun k hk => ?_⟩
    dsimp only
    rw [getD_map_lt _ _ k (by rw [graphs2_length]; exact hk) zeroMat zeroMat,
      graphs2_getD nv da graphs k hk]

theorem mase_fit_spec_witness :
    (MultipleASE_fit 2 true rd0c5 [A0c5]).latent_right = none ∧
    (MultipleASE_fit 2 true rd0c5 [A0c5]).scores.getD 0 zeroMat
      = matTmulmul 2 (MultipleASE_fit 2 true rd0c5 [A0c5]).latent_left
          (augment_diagonal 2 A0c5)
          (MultipleASE_fit 2 true rd0c5 [A0c5]).latent_left := by
  obtain ⟨h1, h2⟩ := (mase_fit_spec_amended 2 true rd0c5 [A0c5]).1 (by decide)
  refine ⟨h1, ?_⟩
  have h3 := h2 0 (by decide)
  simpa using h3
